import Mathlib

/-!
A shallow embedding of the core of the `discopy` repository
(`src/discopy/tensor.py` and `src/discopy/symmetric.py`), together with
theorems settling the specification claims about it.

Conventions of the embedding:
* Python integers are `Int` (or `Nat` where the source guarantees
  non-negativity), dense numpy arrays are flat row-major `List Int`
  together with a shape, and fallible Python code returns
  `Except PyErr _`.
* `Dim` values (tuples of positive integers with the 1-atoms elided)
  are `List Nat`; monoidal types of the symmetric fragment are lists of
  atom names (`List String`).
-/

namespace DiscopyModel

/-- Python-level error kinds raised by the embedded code: `typeErr` models
`TypeError`, `valueErr` models `ValueError` (including numpy reshape
failures), `axErr` models discopy's `AxiomError`, `notImplErr` models
`NotImplementedError` and `indexErr` models `IndexError`. -/
inductive PyErr where
  | typeErr
  | valueErr
  | axErr
  | notImplErr
  | indexErr
  deriving DecidableEq, Repr

/-- A component passed to `Dim.__init__` (tensor.py line 44): either an
integer dimension or a non-integer payload, represented here by a string,
mirroring the `dim.name` attribute the source inspects. -/
inductive DimComp where
  | intC (n : Int)
  | strC (s : String)
  deriving DecidableEq, Repr

/-- The elision filter of `Dim.__init__` (tensor.py line 46):
`Dim(1) == Dim()`, atoms whose name equals `1` are dropped before any
validation happens. -/
def dimFilter (comps : List DimComp) : List DimComp :=
  comps.filter (fun c => c ≠ DimComp.intC 1)

/-- The numeric value of a component (only meaningful for `intC`). -/
def dimVal : DimComp → Nat
  | .intC n => n.toNat
  | .strC _ => 0

/-- The validation loop of `Dim.__init__` (tensor.py lines 47-51): the
first component whose name is not an `int` raises `TypeError`, the first
integer component below `1` raises `ValueError`. -/
def dimCheck : List DimComp → Except PyErr (List Nat)
  | [] => .ok []
  | .intC n :: rest =>
      if n < 1 then .error .valueErr
      else do
        let r ← dimCheck rest
        .ok (n.toNat :: r)
  | .strC _ :: _ => .error .typeErr

/-- `Dim.__init__` (tensor.py lines 44-52): elide the 1-atoms, then
validate the remaining components in order. -/
def mkDim (comps : List DimComp) : Except PyErr (List Nat) :=
  dimCheck (dimFilter comps)

/-- The total size of a shape, i.e. the number of entries of a dense array
of that shape. -/
def prodD (l : List Nat) : Nat := l.prod

/-- Decidable test for `isinstance(dim.name, int)`. -/
def isIntC : DimComp → Bool
  | .intC _ => true
  | .strC _ => false

/-- Decidable test for an integer component of value at least 1. -/
def intGe1 : DimComp → Bool
  | .intC n => decide (1 ≤ n)
  | .strC _ => false

/-- Decidable test for an integer component of value below 1. -/
def intLt1 : DimComp → Bool
  | .intC n => decide (n < 1)
  | .strC _ => false

/-- `tensor.Tensor`: a domain and codomain `Dim` together with the dense
array (stored flat, row-major, as numpy does internally). -/
structure Tensor where
  dom : List Nat
  cod : List Nat
  array : List Int
  deriving DecidableEq, Repr

/-- `Tensor.__init__` (tensor.py lines 195-197): the payload is reshaped
to `tuple(dom @ cod)`; numpy's reshape fails with a `ValueError` exactly
when the number of entries does not match the shape. -/
def mkTensor (dom cod : List Nat) (array : List Int) : Except PyErr Tensor :=
  if array.length = prodD (dom ++ cod) then .ok ⟨dom, cod, array⟩
  else .error .valueErr

/-- The right-hand operand of `Tensor.__add__`: either a Python `int`
literal or another `Tensor`. -/
inductive Operand where
  | intLit (n : Int)
  | tens (t : Tensor)
  deriving DecidableEq, Repr

/-- The `other == 0` test at the top of `Tensor.__add__` (tensor.py line
232): an `int` compares by value, a `Tensor` compares true when every
entry of its array is zero (`Tensor.__eq__` against a non-`Tensor`). -/
def operandIsZero : Operand → Bool
  | .intLit n => n == 0
  | .tens u => u.array.all (fun x => x == 0)

/-- `Tensor.__add__` (tensor.py lines 231-238): return `self` when the
operand compares equal to `0`, raise `TypeError` on a non-`Tensor`
operand, raise `AxiomError` on a dom/cod mismatch, otherwise add the
arrays elementwise. -/
def tensorAdd (t : Tensor) (o : Operand) : Except PyErr Tensor :=
  if operandIsZero o then .ok t
  else match o with
    | .intLit _ => .error .typeErr
    | .tens u =>
        if t.dom = u.dom ∧ t.cod = u.cod then
          .ok ⟨t.dom, t.cod, List.zipWith (· + ·) t.array u.array⟩
        else .error .axErr

/-- `Tensor.__radd__` (tensor.py lines 240-241) simply delegates to
`__add__`; this is what evaluates Python's `0 + t`. -/
def tensorRadd (t : Tensor) (o : Operand) : Except PyErr Tensor :=
  tensorAdd t o

/-- `numpy.tensordot(a, b, n)` on flat row-major arrays, contracting the
last `n` axes of `a` (of total size `Q`) with the first `n` axes of `b`:
the result is the `P x R` matrix product of the flattened operands, where
`P` is the size of the free axes of `a` and `R` that of `b`. -/
def matmulFlat (P Q R : Nat) (a b : List Int) : List Int :=
  (List.range (P * R)).map (fun ix =>
    ((List.range Q).map (fun j =>
      a.getD (ix / R * Q + j) 0 * b.getD (j * R + ix % R) 0)).foldr (· + ·) 0)

/-- numpy broadcast multiplication `a * b` for the case where at least one
operand is a 0-dimensional array (the `else` branch of `Tensor.then`,
tensor.py line 259). -/
def pyMulBroadcast (a b : List Int) : List Int :=
  if a.length = 1 then b.map (fun y => a.getD 0 0 * y)
  else a.map (fun x => x * b.getD 0 0)

/-- `Tensor.then` (tensor.py lines 249-260) for a single `Tensor` operand:
raise `AxiomError` when `self.cod != other.dom`, otherwise contract the
arrays with `tensordot` along `len(self.cod)` axes (falling back to a
broadcast product when either array is 0-dimensional, i.e. when its
`dom @ cod` is the empty shape) and wrap the result as
`Tensor(self.dom, other.cod, array)`. -/
def tensorThen (f g : Tensor) : Except PyErr Tensor :=
  if f.cod ≠ g.dom then .error .axErr
  else
    mkTensor f.dom g.cod
      (if f.dom ++ f.cod ≠ [] ∧ g.dom ++ g.cod ≠ [] then
        matmulFlat (prodD f.dom) (prodD f.cod) (prodD g.cod) f.array g.array
      else pyMulBroadcast f.array g.array)

/-- `Tensor.zeros` (tensor.py lines 351-361): the all-zero tensor of a
given shape. -/
def zerosT (dom cod : List Nat) : Tensor :=
  ⟨dom, cod, List.replicate (prodD (dom ++ cod)) 0⟩

/-- `tensor.Box` (tensor.py lines 707-711). Modelled from the spec for the
part outside src/: `rigid.Box.__init__` stores the payload opaquely as
`data`; neither it nor `tensor.Box.__init__` performs any shape
validation. -/
structure TBox where
  name : String
  dom : List Nat
  cod : List Nat
  data : List Int
  deriving DecidableEq, Repr

/-- `tensor.Box.__init__` as an explicit (trivially successful)
construction step: the payload is stored untouched, so construction never
fails on a shape mismatch. -/
def tboxInit (name : String) (dom cod : List Nat) (data : List Int) :
    Except PyErr TBox :=
  .ok ⟨name, dom, cod, data⟩

/-- `Box.eval` (tensor.py lines 742-743) routes through
`Functor.__call__`'s `monoidal.Box` branch (lines 444-453) with the
identity object map, ending in `Tensor(dom, cod, data)` whose reshape
fails exactly on a size mismatch. -/
def tboxEval (b : TBox) : Except PyErr Tensor :=
  mkTensor b.dom b.cod b.data

/-- The value of a Python `sum(...)` over tensors: either the integer `0`
start value (empty sum) or a `Tensor`. -/
inductive SumVal where
  | intZero
  | tens (t : Tensor)
  deriving DecidableEq, Repr

/-- `tensor.Sum` (tensor.py lines 695-698): a list of terms together with
the declared dom/cod (stored by `monoidal.Sum`). -/
structure TSum where
  terms : List TBox
  dom : List Nat
  cod : List Nat
  deriving DecidableEq, Repr

/-- One step of Python's builtin `sum` over tensors: `0 + t` evaluates
`t.__radd__(0)` which returns `t`; a tensor accumulator uses
`Tensor.__add__`. -/
def pyAccAdd (acc : SumVal) (t : Tensor) : Except PyErr SumVal :=
  match acc with
  | .intZero => (tensorRadd t (.intLit 0)).map SumVal.tens
  | .tens a => (tensorAdd a (.tens t)).map SumVal.tens

/-- `Sum.eval` (tensor.py lines 697-698):
`sum(term.eval() for term in self.terms)`, with Python's default integer
`0` start value; the generator is consumed lazily, so each term is
evaluated just before it is added to the accumulator. -/
def sumEval (s : TSum) : Except PyErr SumVal :=
  s.terms.foldlM (fun acc b => do
    let t ← tboxEval b
    pyAccAdd acc t) SumVal.intZero

/-- `Functor.__call__` on a `monoidal.Sum` (tensor.py lines 426-428) along
the `eval` path (identity object map):
`sum(map(self, diagram), Tensor.zeros(dom, cod))`. -/
def functorSumEval (s : TSum) : Except PyErr Tensor :=
  s.terms.foldlM (fun acc b => do
    let t ← tboxEval b
    tensorAdd acc (.tens t)) (zerosT s.dom s.cod)

/-- The numeric backends registered in `BACKENDS` (tensor.py lines
116-122), identified by tag. -/
inductive BackendTag where
  | numpyB
  | jaxB
  | torchB
  | tensorflowB
  deriving DecidableEq, Repr

/-- `get_backend` (tensor.py lines 126-135): the name lookup in
`BACKENDS`, raising `ValueError` on an unknown name (instantiation
caching has no observable effect in the model). -/
def lookupBackend (name : String) : Except PyErr BackendTag :=
  if name = "np" ∨ name = "numpy" then .ok .numpyB
  else if name = "jax" ∨ name = "jax.numpy" then .ok .jaxB
  else if name = "pytorch" ∨ name = "torch" then .ok .torchB
  else if name = "tensorflow" then .ok .tensorflowB
  else .error .valueErr

/-- `Tensor.set_backend` (tensor.py lines 176-180): push the named backend
on the stack. -/
def setBackend (stack : List BackendTag) (name : String) :
    Except PyErr (List BackendTag) := do
  let b ← lookupBackend name
  .ok (stack ++ [b])

/-- `Tensor.backend` (tensor.py lines 187-193), a `contextmanager` whose
generator runs `yield cls.set_backend(value)` inside `try` and
`cls._backend_stack.pop()` in `finally`: the body runs with the new
backend pushed, and the pop happens on every exit path, whether the body
returns normally or raises (and even when `set_backend` itself raises).
The result is the body's outcome together with the final stack. -/
def backendScope (stack : List BackendTag) (name : String)
    (body : Except PyErr Unit) : Except PyErr Unit × List BackendTag :=
  match lookupBackend name with
  | .error e => (.error e, stack.dropLast)
  | .ok b => (body, (stack ++ [b]).dropLast)

/-- `Tensor.get_backend` (tensor.py lines 172-174): the top of the stack
(`stack[-1]`). -/
def getBackendTop (stack : List BackendTag) : Option BackendTag :=
  stack.getLast?

/-- The `Dim` consisting of `n` legs of atomic dimension `d`: `dim ** n`
with the 1-atoms elided. Modelled from the spec for the part outside
src/: `frobenius.Spider.__init__` sets `dom = dim ** n_legs_in` and
`cod = dim ** n_legs_out`, the spider's array having shape
`dim^(n_in+n_out)`. -/
def repDim (n d : Nat) : List Nat :=
  if d = 1 then [] else List.replicate n d

/-- The elided `Dim` of a single atomic dimension `d` (`Dim(d)`). -/
def spiderTyList (d : Nat) : List Nat :=
  if d = 1 then [] else [d]

/-- `1 + d + d^2 + ... + d^(k-1)`: the row-major flat distance between
consecutive fully-diagonal entries of a rank-`k` tensor with all axes of
size `d`. -/
def geomSum (d : Nat) : Nat → Nat
  | 0 => 0
  | k + 1 => 1 + d * geomSum d k

/-- The array built by `Spider.__init__` (tensor.py lines 769-775):
start from `numpy.zeros(dom @ cod)` and set
`array[len(dom @ cod) * (i,)] = 1` for each `i < prod(dim)`; the flat
row-major position of the multi-index `(i, ..., i)` is
`i * geomSum d k`. -/
def spiderArray (nIn nOut d : Nat) : List Int :=
  (List.range (prodD (spiderTyList d))).foldl
    (fun arr i => arr.set (i * geomSum d (repDim nIn d ++ repDim nOut d).length) 1)
    (List.replicate (prodD (repDim nIn d ++ repDim nOut d)) 0)

/-- The `tensor.Spider` box (tensor.py lines 746-776): name, dom, cod and
the diagonal array. -/
def mkSpiderBox (nIn nOut d : Nat) : TBox :=
  ⟨"Spider", repDim nIn d, repDim nOut d, spiderArray nIn nOut d⟩

/-- Row-major flattening of a multi-index against a shape. -/
def flattenIdx (shape idx : List Nat) : Nat :=
  (List.zip shape idx).foldl (fun acc p => acc * p.1 + p.2) 0

/-- The result of `Diagram.spiders`: either the identity diagram on the
given `Dim` or a `Spider` box. -/
inductive SpidersRes where
  | idRes (dim : List Nat)
  | spiderRes (b : TBox)
  deriving DecidableEq, Repr

/-- `Diagram.spiders` (tensor.py lines 663-689): `Id(dim)` when the
(elided) `dim` is empty, a `Spider` when it has exactly one atom,
`NotImplementedError` otherwise. -/
def spidersD (nIn nOut : Nat) (dim : List Nat) : Except PyErr SpidersRes :=
  if dim = [] then .ok (.idRes dim)
  else if dim.length = 1 then .ok (.spiderRes (mkSpiderBox nIn nOut (dim.headD 1)))
  else .error .notImplErr

/-! Shared helper lemmas. -/

theorem prodD_append (l m : List Nat) : prodD (l ++ m) = prodD l * prodD m := by
  simp [prodD]

theorem rangeOne : List.range 1 = [0] := rfl

theorem matmulFlat_length (P Q R : Nat) (a b : List Int) :
    (matmulFlat P Q R a b).length = P * R := by
  simp [matmulFlat]

theorem map_getD_range (l : List Int) (f : Int → Int) (n : Nat) (h : l.length = n) :
    (List.range n).map (fun i => f (l.getD i 0)) = l.map f := by
  subst h
  apply List.ext_getElem
  · simp
  · intro i h1 h2
    have hi : i < l.length := by simpa using h2
    simp [List.getD_eq_getElem?_getD, List.getElem?_eq_getElem hi]

theorem matmul_left_scalar (R : Nat) (a b : List Int)
    (ha : a.length = 1) (hb : b.length = R) :
    matmulFlat 1 1 R a b = pyMulBroadcast a b := by
  subst hb
  apply List.ext_getElem
  · simp [matmulFlat_length, pyMulBroadcast, ha]
  · intro i h1 h2
    have hi : i < b.length := by simpa [matmulFlat_length] using h1
    have h0 : 0 < a.length := by omega
    simp [matmulFlat, pyMulBroadcast, ha, Nat.div_eq_of_lt hi, Nat.mod_eq_of_lt hi,
      rangeOne, List.getD_eq_getElem?_getD, List.getElem?_eq_getElem hi,
      List.getElem?_eq_getElem h0]

theorem matmul_right_scalar (P : Nat) (a b : List Int)
    (ha : a.length = P) (hb : b.length = 1) :
    matmulFlat P 1 1 a b = pyMulBroadcast a b := by
  subst ha
  by_cases h1 : a.length = 1
  · apply List.ext_getElem
    · simp [matmulFlat_length, pyMulBroadcast, h1, hb]
    · intro i hl hr
      have hi : i < 1 := by simpa [matmulFlat_length, h1] using hl
      interval_cases i
      have h0a : 0 < a.length := by omega
      have h0b : 0 < b.length := by omega
      simp [matmulFlat, pyMulBroadcast, h1, rangeOne,
        List.getD_eq_getElem?_getD, List.getElem?_eq_getElem h0a,
        List.getElem?_eq_getElem h0b]
  · apply List.ext_getElem
    · simp [matmulFlat_length, pyMulBroadcast, h1]
    · intro i hl hr
      have hi : i < a.length := by simpa [matmulFlat_length] using hl
      have h0 : 0 < b.length := by omega
      simp [matmulFlat, pyMulBroadcast, h1, Nat.mod_one, rangeOne,
        List.getD_eq_getElem?_getD, List.getElem?_eq_getElem hi,
        List.getElem?_eq_getElem h0]

theorem zipWith_add_zero_right (l m : List Int)
    (hz : m.all (fun x => x == 0) = true) (hl : l.length = m.length) :
    List.zipWith (· + ·) l m = l := by
  induction l generalizing m with
  | nil => simp
  | cons a t ih =>
      cases m with
      | nil => simp at hl
      | cons b u =>
          simp only [List.all_cons, Bool.and_eq_true, beq_iff_eq] at hz
          simp only [List.length_cons, Nat.succ.injEq] at hl
          simp [hz.1, ih u hz.2 hl]

theorem getD_set_int (l : List Int) (i p : Nat) (v : Int) :
    (l.set i v).getD p 0 = if i = p ∧ i < l.length then v else l.getD p 0 := by
  rcases Nat.lt_or_ge p l.length with hp | hp
  · by_cases h : i = p
    · subst h
      by_cases hi : i < l.length
      · simp [List.getD_eq_getElem?_getD, List.getElem?_set, hi]
      · omega
    · simp [List.getD_eq_getElem?_getD, List.getElem?_set, h]
  · have h1 : (l.set i v).getD p 0 = 0 := by
      apply List.getD_eq_default
      simpa using hp
    have h2 : l.getD p 0 = 0 := List.getD_eq_default _ _ hp
    have hni : ¬ (i = p ∧ i < l.length) := by
      rintro ⟨rfl, hlt⟩; omega
    rw [h1, if_neg hni, h2]

theorem exceptBind_ok {ε α β : Type} (v : α) (f : α → Except ε β) :
    (Except.ok v >>= f) = f v := rfl

theorem exceptMap_ok {ε α β : Type} (f : α → β) (v : α) :
    Except.map f (Except.ok v : Except ε α) = Except.ok (f v) := rfl

theorem dimCheck_ok (l : List DimComp) (h : ∀ c ∈ l, intGe1 c) :
    dimCheck l = .ok (l.map dimVal) := by
  induction l with
  | nil => rfl
  | cons c rest ih =>
      cases c with
      | intC n =>
          have hn : (1 : Int) ≤ n := by
            simpa [intGe1] using h _ (List.mem_cons_self _ _)
          have hn' : ¬ n < 1 := by omega
          simp only [dimCheck, hn', if_false, ite_false,
            ih (fun c hc => h c (List.mem_cons_of_mem _ hc)), dimVal, List.map_cons]
          rfl
      | strC s =>
          have := h _ (List.mem_cons_self _ _)
          simp [intGe1] at this

theorem dimCheck_valueErr (l : List DimComp) (hall : ∀ c ∈ l, isIntC c)
    (hex : ∃ c ∈ l, intLt1 c) : dimCheck l = .error .valueErr := by
  induction l with
  | nil => obtain ⟨c, hc, _⟩ := hex; cases hc
  | cons c rest ih =>
      cases c with
      | strC s =>
          have := hall _ (List.mem_cons_self _ _)
          simp [isIntC] at this
      | intC n =>
          by_cases hn : n < 1
          · simp [dimCheck, hn]
          · obtain ⟨c, hc, hlt⟩ := hex
            rcases List.mem_cons.mp hc with rfl | hc'
            · simp [intLt1] at hlt; omega
            · have hr := ih (fun c hc => hall c (List.mem_cons_of_mem _ hc)) ⟨c, hc', hlt⟩
              simp only [dimCheck, hn, if_false, ite_false, hr]
              rfl

theorem dimCheck_typeErr (l : List DimComp)
    (hall : ∀ c ∈ l, isIntC c → intGe1 c)
    (hex : ∃ c ∈ l, ¬ isIntC c) : dimCheck l = .error .typeErr := by
  induction l with
  | nil => obtain ⟨c, hc, _⟩ := hex; cases hc
  | cons c rest ih =>
      cases c with
      | strC s => simp [dimCheck]
      | intC n =>
          have hn : (1 : Int) ≤ n := by
            simpa [intGe1, isIntC] using hall _ (List.mem_cons_self _ _)
          have hn' : ¬ n < 1 := by omega
          obtain ⟨c, hc, hni⟩ := hex
          rcases List.mem_cons.mp hc with rfl | hc'
          · simp [isIntC] at hni
          · have hr := ih (fun c hc => hall c (List.mem_cons_of_mem _ hc)) ⟨c, hc', hni⟩
            simp only [dimCheck, hn', if_false, ite_false, hr]
            rfl

theorem tensorThen_eq_matmul (f g : Tensor) (h : f.cod = g.dom)
    (hf : f.array.length = prodD (f.dom ++ f.cod))
    (hg : g.array.length = prodD (g.dom ++ g.cod)) :
    tensorThen f g =
      mkTensor f.dom g.cod
        (matmulFlat (prodD f.dom) (prodD f.cod) (prodD g.cod) f.array g.array) := by
  have hcond : ¬ (f.cod ≠ g.dom) := by simp [h]
  rw [tensorThen, if_neg hcond]
  by_cases hfe : f.dom ++ f.cod = []
  · have hd : f.dom = [] := (List.append_eq_nil.mp hfe).1
    have hc : f.cod = [] := (List.append_eq_nil.mp hfe).2
    have hgd : g.dom = [] := by rw [← h, hc]
    have ha : f.array.length = 1 := by simpa [hfe, prodD] using hf
    have hb : g.array.length = prodD g.cod := by
      simpa [hgd, prodD_append, prodD] using hg
    have hbr : ¬ (f.dom ++ f.cod ≠ [] ∧ g.dom ++ g.cod ≠ []) := by simp [hfe]
    rw [if_neg hbr]
    rw [← matmul_left_scalar (prodD g.cod) f.array g.array ha hb]
    simp [hd, hc, prodD]
  · by_cases hge : g.dom ++ g.cod = []
    · have hgd : g.dom = [] := (List.append_eq_nil.mp hge).1
      have hgc : g.cod = [] := (List.append_eq_nil.mp hge).2
      have hfc : f.cod = [] := by rw [h, hgd]
      have ha : f.array.length = prodD f.dom := by
        simpa [hfc, prodD_append, prodD] using hf
      have hb : g.array.length = 1 := by simpa [hge, prodD] using hg
      have hbr : ¬ (f.dom ++ f.cod ≠ [] ∧ g.dom ++ g.cod ≠ []) := by simp [hge]
      rw [if_neg hbr]
      rw [← matmul_right_scalar (prodD f.dom) f.array g.array ha hb]
      simp [hfc, hgc, prodD]
    · rw [if_pos ⟨hfe, hge⟩]

/-! Claim theorems for the tensor side. -/

/-- C9: the `other == 0` fast path of `Tensor.__add__` together with the
delegation of `__radd__` makes the Python integer `0` a two-sided
additive identity: for every tensor `t`, both `t + 0` and `0 + t` return
`t` itself, which is what makes Python's builtin `sum()` applicable to
tensors. -/
theorem tensor_add_zero_identity (t : Tensor) :
    tensorAdd t (.intLit 0) = .ok t ∧ tensorRadd t (.intLit 0) = .ok t := by
  constructor <;> simp [tensorAdd, tensorRadd, operandIsZero]

/-- C4: `Tensor.then` raises `AxiomError` exactly when `f.cod != g.dom`;
when the codomains match it returns the tensor with domain `f.dom` and
codomain `g.cod` whose array is the contraction of `f`'s array with
`g`'s array along the `len(f.cod)` matched axes (on flat arrays, the
`prodD f.dom` by `prodD g.cod` matrix product; for 2x2 matrices this is
the matrix product applying `f` first, see the witness). The hypotheses
say that `f` and `g` are well-formed tensors, i.e. their arrays have the
size of their declared shapes — the invariant `Tensor.__init__`
establishes. -/
theorem tensor_then_spec (f g : Tensor)
    (hf : f.array.length = prodD (f.dom ++ f.cod))
    (hg : g.array.length = prodD (g.dom ++ g.cod)) :
    (f.cod ≠ g.dom → tensorThen f g = .error .axErr) ∧
    (f.cod = g.dom → tensorThen f g = .ok ⟨f.dom, g.cod,
      matmulFlat (prodD f.dom) (prodD f.cod) (prodD g.cod) f.array g.array⟩) := by
  constructor
  · intro h
    rw [tensorThen, if_pos h]
  · intro h
    rw [tensorThen_eq_matmul f g h hf hg]
    simp [mkTensor, matmulFlat_length, prodD_append]

/-- Witness for C4: composing the 2x2 matrices `A = [[1,2],[3,4]]` and
`B = [[5,6],[7,8]]` with `A.then(B)` yields the matrix product applying
`A` first, `A @ B = [[19,22],[43,50]]`, while a 2x2 matrix composed with
a tensor of domain `Dim(3)` raises `AxiomError`. -/
theorem tensor_then_spec_witness :
    tensorThen ⟨[2], [2], [1, 2, 3, 4]⟩ ⟨[2], [2], [5, 6, 7, 8]⟩ =
      .ok ⟨[2], [2], [19, 22, 43, 50]⟩ ∧
    tensorThen ⟨[2], [2], [1, 2, 3, 4]⟩ ⟨[3], [2], [5, 6, 7, 8, 9, 10]⟩ =
      .error .axErr := by
  constructor
  · have h := (tensor_then_spec ⟨[2], [2], [1, 2, 3, 4]⟩ ⟨[2], [2], [5, 6, 7, 8]⟩
      (by decide) (by decide)).2 (by decide)
    rw [h]; rfl
  · exact (tensor_then_spec ⟨[2], [2], [1, 2, 3, 4]⟩ ⟨[3], [2], [5, 6, 7, 8, 9, 10]⟩
      (by decide) (by decide)).1 (by decide)

/-- C6: constructing a tensor `Box` stores the payload untouched and
always succeeds, even when the payload size is incompatible with the
declared `dom @ cod` shape; the mismatch surfaces only when the box is
evaluated through the functor, where the payload is reshaped to the
declared shape and the reshape fails. -/
theorem box_shape_deferred (name : String) (dom cod : List Nat) (data : List Int) :
    tboxInit name dom cod data = .ok ⟨name, dom, cod, data⟩ ∧
    (data.length ≠ prodD (dom ++ cod) →
      tboxEval ⟨name, dom, cod, data⟩ = .error .valueErr) ∧
    (data.length = prodD (dom ++ cod) →
      tboxEval ⟨name, dom, cod, data⟩ = .ok ⟨dom, cod, data⟩) := by
  refine ⟨rfl, fun h => ?_, fun h => ?_⟩ <;> simp [tboxEval, mkTensor, h]

/-- Witness for C6: a box on `Dim(2) -> Dim(2)` with a 3-entry payload is
constructed without error, and evaluating it raises the reshape error. -/
theorem box_shape_deferred_witness :
    tboxInit ("f") [2] [2] [1, 2, 3] = .ok ⟨"f", [2], [2], [1, 2, 3]⟩ ∧
    tboxEval ⟨"f", [2], [2], [1, 2, 3]⟩ = .error .valueErr :=
  ⟨(box_shape_deferred ("f") [2] [2] [1, 2, 3]).1,
   (box_shape_deferred ("f") [2] [2] [1, 2, 3]).2.1 (by decide)⟩

/-- C7: when `Tensor.backend(name)` is entered with a known backend name,
the scope pushes the backend, runs the body, and pops in `finally`, so
after exit — whether the body returned normally or raised — the backend
stack is exactly what it was before entry and `get_backend()` returns
the previously active backend; the body's outcome is propagated. -/
theorem backend_scope_restores (stack : List BackendTag) (name : String)
    (body : Except PyErr Unit) (b : BackendTag)
    (h : lookupBackend name = .ok b) :
    (backendScope stack name body).1 = body ∧
    (backendScope stack name body).2 = stack ∧
    getBackendTop (backendScope stack name body).2 = getBackendTop stack := by
  simp [backendScope, h]

/-- Witness for C7: entering jax from a numpy-topped stack, with a body
that raises, leaves the stack unchanged. -/
theorem backend_scope_restores_witness :
    (backendScope [.numpyB] ("jax") (.error .typeErr)).1 = .error .typeErr ∧
    (backendScope [.numpyB] ("jax") (.error .typeErr)).2 = [.numpyB] ∧
    getBackendTop (backendScope [.numpyB] ("jax") (.error .typeErr)).2 =
      getBackendTop [.numpyB] :=
  backend_scope_restores [.numpyB] ("jax") (.error .typeErr) .jaxB rfl

/-- C8: `Dim` construction succeeds on components that are all integers
of value at least 1 (eliding the 1-atoms), raises a `ValueError`-kind
error when the components are integers but one is below 1, raises a
`TypeError`-kind error when some component is not an integer (and no
integer component is invalid), and `Dim(1) @ Dim(2) @ Dim(3)` equals
`Dim(2, 3)`. -/
theorem dim_spec (comps : List DimComp) :
    ((∀ c ∈ comps, intGe1 c) → mkDim comps = .ok ((dimFilter comps).map dimVal)) ∧
    ((∀ c ∈ comps, isIntC c) → (∃ c ∈ comps, intLt1 c) →
      mkDim comps = .error .valueErr) ∧
    ((∀ c ∈ comps, isIntC c → intGe1 c) → (∃ c ∈ comps, ¬ isIntC c) →
      mkDim comps = .error .typeErr) ∧
    ((do
        let a ← mkDim [.intC 1]
        let b ← mkDim [.intC 2]
        let c ← mkDim [.intC 3]
        pure (a ++ b ++ c) : Except PyErr (List Nat)) = mkDim [.intC 2, .intC 3]) := by
  refine ⟨fun h => ?_, fun hall hex => ?_, fun hall hex => ?_, by rfl⟩
  · exact dimCheck_ok _ (fun c hc => h c (List.mem_of_mem_filter hc))
  · refine dimCheck_valueErr _ (fun c hc => hall c (List.mem_of_mem_filter hc)) ?_
    obtain ⟨c, hc, hlt⟩ := hex
    refine ⟨c, List.mem_filter.mpr ⟨hc, ?_⟩, hlt⟩
    cases c with
    | intC n => simp [intLt1] at hlt; simp; omega
    | strC s => simp [intLt1] at hlt
  · refine dimCheck_typeErr _ (fun c hc => hall c (List.mem_of_mem_filter hc)) ?_
    obtain ⟨c, hc, hni⟩ := hex
    refine ⟨c, List.mem_filter.mpr ⟨hc, ?_⟩, hni⟩
    cases c with
    | intC n => simp [isIntC] at hni
    | strC s => simp

/-- Witness for C8: `Dim(2, 1, 3)` elides the 1 and yields `Dim(2, 3)`,
`Dim(2, 0)` raises `ValueError`, `Dim('a')` raises `TypeError`. -/
theorem dim_spec_witness :
    mkDim [.intC 2, .intC 1, .intC 3] = .ok [2, 3] ∧
    mkDim [.intC 2, .intC 0] = .error .valueErr ∧
    mkDim [.strC ("a")] = .error .typeErr := by
  refine ⟨?_, ?_, ?_⟩
  · exact (dim_spec [.intC 2, .intC 1, .intC 3]).1 (by decide)
  · exact (dim_spec [.intC 2, .intC 0]).2.1 (by decide) (by decide)
  · exact (dim_spec [.strC ("a")]).2.2.1 (by decide) (by decide)

/-- C10: `Diagram.spiders(n_legs_in, n_legs_out, dim)` returns the
identity diagram on `dim` when `dim` is the empty `Dim` — which is what
`Dim` construction produces when every per-leg dimension is 1 —
regardless of the leg counts, returns the `Spider` box when `dim` has
exactly one atom, and raises `NotImplementedError` when `dim` has two or
more atoms. -/
theorem spiders_cases (nIn nOut : Nat) (dim : List Nat) (comps : List DimComp) :
    ((∀ c ∈ comps, c = DimComp.intC 1) → mkDim comps = .ok []) ∧
    (dim = [] → spidersD nIn nOut dim = .ok (.idRes dim)) ∧
    (dim.length = 1 →
      spidersD nIn nOut dim = .ok (.spiderRes (mkSpiderBox nIn nOut (dim.headD 1)))) ∧
    (2 ≤ dim.length → spidersD nIn nOut dim = .error .notImplErr) := by
  refine ⟨fun h => ?_, fun h => ?_, fun h => ?_, fun h => ?_⟩
  · have hfil : dimFilter comps = [] := by
      refine List.filter_eq_nil_iff.mpr (fun c hc => ?_)
      simp [h c hc]
    simp [mkDim, hfil, dimCheck]
  · subst h; rfl
  · match dim, h with
    | [d], _ => simp [spidersD]
  · match dim, h with
    | a :: b :: rest, _ => simp [spidersD]

/-- Witness for C10: `spiders(3, 2, Dim(1,1))` is the identity on the
empty `Dim`, `spiders(1, 2, Dim(2))` is the spider box, and
`spiders(1, 2, Dim(2,3))` raises `NotImplementedError`. -/
theorem spiders_cases_witness :
    mkDim [.intC 1, .intC 1] = .ok [] ∧
    spidersD 3 2 [] = .ok (.idRes []) ∧
    spidersD 1 2 [2] = .ok (.spiderRes (mkSpiderBox 1 2 2)) ∧
    spidersD 1 2 [2, 3] = .error .notImplErr :=
  ⟨(spiders_cases 3 2 [] [.intC 1, .intC 1]).1 (by decide),
   (spiders_cases 3 2 [] [.intC 1, .intC 1]).2.1 rfl,
   (spiders_cases 1 2 [2] []).2.2.1 (by decide),
   (spiders_cases 1 2 [2, 3] []).2.2.2 (by decide)⟩

/-- C2: evaluating `Sum([d1, d2])` for two boxes of matching dom/cod and
well-sized payloads is the elementwise sum of the two terms'
evaluations, and evaluating the zero-length sum through the functor
yields the all-zero tensor of the sum's declared dom/cod shape. -/
theorem sum_eval_spec (d1 d2 : TBox) (dom cod : List Nat)
    (hdom : d1.dom = d2.dom) (hcod : d1.cod = d2.cod)
    (h1 : d1.data.length = prodD (d1.dom ++ d1.cod))
    (h2 : d2.data.length = prodD (d2.dom ++ d2.cod)) :
    sumEval ⟨[d1, d2], d1.dom, d1.cod⟩ =
      .ok (.tens ⟨d1.dom, d1.cod, List.zipWith (· + ·) d1.data d2.data⟩) ∧
    functorSumEval ⟨[], dom, cod⟩ = .ok (zerosT dom cod) := by
  constructor
  · have e1 : tboxEval d1 = .ok ⟨d1.dom, d1.cod, d1.data⟩ := by
      simp [tboxEval, mkTensor, h1]
    have e2 : tboxEval d2 = .ok ⟨d2.dom, d2.cod, d2.data⟩ := by
      simp [tboxEval, mkTensor, h2]
    by_cases hz : d2.data.all (fun x => x == 0) = true
    · have hzz : List.zipWith (· + ·) d1.data d2.data = d1.data :=
        zipWith_add_zero_right _ _ hz (by rw [h1, h2, hdom, hcod])
      have hz' : ∀ x ∈ d2.data, x = 0 := by simpa using hz
      simp [sumEval, List.foldlM_cons, List.foldlM_nil, e1, e2, pyAccAdd,
        tensorRadd, tensorAdd, operandIsZero, exceptBind_ok, exceptMap_ok, hz', hzz,
        if_pos hz']
    · have hz'' : ¬ (∀ x ∈ d2.data, x = 0) := by simpa using hz
      simp [sumEval, List.foldlM_cons, List.foldlM_nil, e1, e2, pyAccAdd,
        tensorRadd, tensorAdd, operandIsZero, exceptBind_ok, exceptMap_ok, hz'',
        hdom, hcod]
  · rfl

/-- Witness for C2: `Sum([f, g]).eval()` with payloads `[1,2]` and
`[10,20]` is the tensor `[11,22]`, and the empty sum over
`Dim(2) -> Dim(3)` evaluates to the zero tensor of that shape. -/
theorem sum_eval_spec_witness :
    sumEval ⟨[⟨"f", [2], [], [1, 2]⟩, ⟨"g", [2], [], [10, 20]⟩], [2], []⟩ =
      .ok (.tens ⟨[2], [], [11, 22]⟩) ∧
    functorSumEval ⟨[], [2], [3]⟩ = .ok (zerosT [2] [3]) := by
  have h := sum_eval_spec ⟨"f", [2], [], [1, 2]⟩ ⟨"g", [2], [], [10, 20]⟩ [2] [3]
    rfl rfl (by decide) (by decide)
  exact ⟨h.1, h.2⟩

/-! Arithmetic for the spider diagonal (C5): row-major flattening is
Horner evaluation in base `d`, and the fully-diagonal positions are the
multiples of `geomSum d k`. -/

/-- Horner evaluation of a digit list in base `d` — the row-major flat
position of a multi-index all of whose axes have size `d`. -/
def vflat (d : Nat) (js : List Nat) : Nat :=
  js.foldl (fun acc j => acc * d + j) 0

theorem foldl_horner (d : Nat) (js : List Nat) (a : Nat) :
    js.foldl (fun acc j => acc * d + j) a =
      a * d ^ js.length + js.foldl (fun acc j => acc * d + j) 0 := by
  induction js generalizing a with
  | nil => simp
  | cons j t ih =>
      simp only [List.foldl_cons, List.length_cons]
      rw [ih (a * d + j), ih (0 * d + j)]
      ring

theorem vflat_cons (d j : Nat) (t : List Nat) :
    vflat d (j :: t) = j * d ^ t.length + vflat d t := by
  show (j :: t).foldl (fun acc j => acc * d + j) 0 = _
  rw [List.foldl_cons, foldl_horner]
  simp [vflat]

theorem vflat_lt (d : Nat) (js : List Nat) (hb : ∀ j ∈ js, j < d) :
    vflat d js < d ^ js.length := by
  induction js with
  | nil => simp [vflat]
  | cons j t ih =>
      have hj : j < d := hb _ (List.mem_cons_self _ _)
      have ht := ih (fun x hx => hb x (List.mem_cons_of_mem _ hx))
      rw [vflat_cons, List.length_cons]
      calc j * d ^ t.length + vflat d t < j * d ^ t.length + d ^ t.length := by omega
      _ = (j + 1) * d ^ t.length := by ring
      _ ≤ d * d ^ t.length := Nat.mul_le_mul_right _ (by omega)
      _ = d ^ (t.length + 1) := by ring

theorem geom_succ_pow (d k : Nat) : geomSum d (k + 1) = d ^ k + geomSum d k := by
  induction k with
  | zero => simp [geomSum]
  | succ k ih =>
      calc geomSum d (k + 2) = 1 + d * geomSum d (k + 1) := rfl
      _ = 1 + d * (d ^ k + geomSum d k) := by rw [ih]
      _ = d ^ (k + 1) + (1 + d * geomSum d k) := by ring
      _ = d ^ (k + 1) + geomSum d (k + 1) := rfl

theorem vflat_replicate (d k i : Nat) :
    vflat d (List.replicate k i) = i * geomSum d k := by
  induction k with
  | zero => simp [vflat, geomSum]
  | succ k ih =>
      rw [List.replicate_succ, vflat_cons, List.length_replicate, ih, geom_succ_pow]
      ring

theorem geom_mul_pred (d k : Nat) (hd : 1 ≤ d) :
    (d - 1) * geomSum d k + 1 = d ^ k := by
  induction k with
  | zero => simp [geomSum]
  | succ k ih =>
      have h1 : (d - 1) * geomSum d (k + 1) = (d - 1) + d * ((d - 1) * geomSum d k) := by
        show (d - 1) * (1 + d * geomSum d k) = _
        ring
      have h2 : (d - 1) + 1 = d := by omega
      calc (d - 1) * geomSum d (k + 1) + 1
          = d * ((d - 1) * geomSum d k) + ((d - 1) + 1) := by rw [h1]; ring
      _ = d * ((d - 1) * geomSum d k) + d := by rw [h2]
      _ = d * ((d - 1) * geomSum d k + 1) := by ring
      _ = d * d ^ k := by rw [ih]
      _ = d ^ (k + 1) := by ring

theorem diag_lt_pow (d k i : Nat) (hd : 1 ≤ d) (hi : i < d) :
    i * geomSum d k < d ^ k := by
  have h := geom_mul_pred d k hd
  have h2 : i * geomSum d k ≤ (d - 1) * geomSum d k :=
    Nat.mul_le_mul_right _ (by omega)
  omega

theorem digit_cancel (P a b V G : Nat) (h : a * P + V = b * P + G)
    (hv : V < P) (hg : G < P) : a = b ∧ V = G := by
  have hP : 0 < P := by omega
  have ha : (a * P + V) / P = a := by
    rw [Nat.mul_comm a P, Nat.mul_add_div hP, Nat.div_eq_of_lt hv]
    omega
  have hb : (b * P + G) / P = b := by
    rw [Nat.mul_comm b P, Nat.mul_add_div hP, Nat.div_eq_of_lt hg]
    omega
  have hab : a = b := by rw [← ha, ← hb, h]
  subst hab
  exact ⟨rfl, Nat.add_left_cancel h⟩

theorem vflat_eq_diag_iff (d : Nat) (hd : 1 ≤ d) (js : List Nat) :
    ∀ i : Nat, (∀ j ∈ js, j < d) → i < d →
      (vflat d js = i * geomSum d js.length ↔ js = List.replicate js.length i) := by
  induction js with
  | nil => intro i _ _; simp [vflat, geomSum]
  | cons j t ih =>
      intro i hb hi
      have hj : j < d := hb _ (List.mem_cons_self _ _)
      have hbt : ∀ x ∈ t, x < d := fun x hx => hb x (List.mem_cons_of_mem _ hx)
      constructor
      · intro h
        rw [vflat_cons, List.length_cons, geom_succ_pow, Nat.mul_add] at h
        have hv : vflat d t < d ^ t.length := vflat_lt d t hbt
        have hig : i * geomSum d t.length < d ^ t.length :=
          diag_lt_pow d t.length i hd hi
        obtain ⟨hji, hvv⟩ := digit_cancel (d ^ t.length) j i _ _ h hv hig
        have htr := (ih i hbt hi).mp hvv
        rw [List.length_cons, List.replicate_succ, hji]
        conv_lhs => rw [htr]
      · intro h
        rw [h, vflat_replicate, List.length_replicate]

/-! The array built by the `Spider.__init__` write loop. -/

theorem foldl_set_length (g : Nat → Nat) (ls : List Nat) (l : List Int) :
    (ls.foldl (fun arr i => arr.set (g i) 1) l).length = l.length := by
  induction ls generalizing l with
  | nil => rfl
  | cons a t ih => simp [List.foldl_cons, ih, List.length_set]

theorem foldl_set_getD (g : Nat → Nat) (N m p : Nat) :
    ((List.range m).foldl (fun (arr : List Int) i => arr.set (g i) 1)
        (List.replicate N (0 : Int))).getD p 0 =
      if (∃ i, i < m ∧ g i = p) ∧ p < N then 1 else 0 := by
  induction m with
  | zero =>
      have hneg : ¬ ((∃ i, i < 0 ∧ g i = p) ∧ p < N) := by
        rintro ⟨⟨i, hi, _⟩, _⟩; omega
      rw [if_neg hneg]
      simp only [List.range_zero, List.foldl_nil]
      rcases Nat.lt_or_ge p N with h | h
      · simp [List.getD_eq_getElem?_getD, List.getElem?_replicate, h]
      · exact List.getD_eq_default _ _ (by simpa using h)
  | succ m ih =>
      rw [List.range_succ, List.foldl_append, List.foldl_cons, List.foldl_nil,
        getD_set_int, foldl_set_length]
      simp only [List.length_replicate]
      by_cases hgm : g m = p ∧ g m < N
      · rw [if_pos hgm, if_pos ⟨⟨m, Nat.lt_succ_self m, hgm.1⟩, hgm.1 ▸ hgm.2⟩]
      · rw [if_neg hgm, ih]
        refine if_congr ?_ rfl rfl
        constructor
        · rintro ⟨⟨i, hi, hgi⟩, hp⟩
          exact ⟨⟨i, by omega, hgi⟩, hp⟩
        · rintro ⟨⟨i, hi, hgi⟩, hp⟩
          rcases Nat.lt_or_ge i m with him | him
          · exact ⟨⟨i, him, hgi⟩, hp⟩
          · have hieq : i = m := by omega
            subst hieq
            exact absurd ⟨hgi, by omega⟩ hgm

theorem flattenIdx_replicate (d : Nat) (js : List Nat) :
    flattenIdx (List.replicate js.length d) js = vflat d js := by
  rw [flattenIdx, vflat]
  have hz : List.zip (List.replicate js.length d) js = js.map (fun j => (d, j)) := by
    induction js with
    | nil => simp
    | cons j t ih => simp [List.replicate_succ, ih]
  rw [hz, List.foldl_map]

/-- C5: for all leg counts and every atomic dimension `d >= 1`, the array
of `Spider(n_legs_in, n_legs_out, d)` is the dense tensor of shape
`d^(n_in + n_out)` (first conjunct: its entry count is the size of the
declared `dom @ cod` shape) whose entry at a multi-index is 1 exactly
when all indices agree and 0 elsewhere (second conjunct, reading the
entry at the row-major position of the multi-index `js`). -/
theorem spider_array_diagonal (nIn nOut d : Nat) (hd : 1 ≤ d) (js : List Nat)
    (hlen : js.length = nIn + nOut) (hb : ∀ j ∈ js, j < d) :
    (spiderArray nIn nOut d).length = prodD (repDim nIn d ++ repDim nOut d) ∧
    (spiderArray nIn nOut d).getD
        (flattenIdx (repDim nIn d ++ repDim nOut d) js) 0 =
      (if ∀ a ∈ js, ∀ b ∈ js, a = b then 1 else 0) := by
  by_cases h1 : d = 1
  · subst h1
    have hc : ∀ a ∈ js, ∀ b ∈ js, a = b := by
      intro a ha b hb2
      have ha1 := hb a ha
      have hb1 := hb b hb2
      omega
    refine ⟨rfl, ?_⟩
    rw [if_pos hc]
    exact rfl
  · have hrep : repDim nIn d ++ repDim nOut d = List.replicate (nIn + nOut) d := by
      unfold repDim
      rw [if_neg h1, if_neg h1, List.replicate_add]
    have hprodsh : prodD (List.replicate (nIn + nOut) d) = d ^ (nIn + nOut) := by
      unfold prodD
      rw [List.prod_replicate]
    have hst : prodD (spiderTyList d) = d := by
      unfold spiderTyList prodD
      rw [if_neg h1, List.prod_cons, List.prod_nil, Nat.mul_one]
    have hsp : spiderArray nIn nOut d =
        (List.range d).foldl
          (fun arr i => arr.set (i * geomSum d (nIn + nOut)) 1)
          (List.replicate (d ^ (nIn + nOut)) 0) := by
      unfold spiderArray
      rw [hrep, List.length_replicate, hprodsh, hst]
    have hfl : flattenIdx (repDim nIn d ++ repDim nOut d) js = vflat d js := by
      rw [hrep, ← hlen, flattenIdx_replicate]
    constructor
    · rw [hsp, foldl_set_length, List.length_replicate, hrep]
      simp [prodD, List.prod_replicate]
    · rw [hsp, hfl, foldl_set_getD]
      have hvp : vflat d js < d ^ (nIn + nOut) := by
        rw [← hlen]
        exact vflat_lt d js hb
      by_cases hc : ∀ a ∈ js, ∀ b ∈ js, a = b
      · rw [if_pos hc]
        refine if_pos ⟨?_, hvp⟩
        cases js with
        | nil =>
            refine ⟨0, by omega, ?_⟩
            simp [vflat]
        | cons j t =>
            refine ⟨j, hb _ (List.mem_cons_self _ _), ?_⟩
            have hrepl : j :: t = List.replicate (j :: t).length j := by
              rw [List.eq_replicate_iff]
              exact ⟨rfl, fun b hbmem => (hc b hbmem j (List.mem_cons_self _ _))⟩
            have hv2 : vflat d (j :: t) = j * geomSum d (j :: t).length := by
              conv_lhs => rw [hrepl]
              rw [vflat_replicate]
            rw [hv2, hlen]
      · rw [if_neg hc]
        refine if_neg ?_
        rintro ⟨⟨i, hi, hgi⟩, _⟩
        have hvv : vflat d js = i * geomSum d js.length := by rw [hlen, ← hgi]
        have hrepl := (vflat_eq_diag_iff d hd js i hb hi).mp hvv
        refine hc ?_
        intro a ha b hb2
        have hha : a = i := by
          have := List.eq_of_mem_replicate (hrepl ▸ ha)
          exact this
        have hhb : b = i := by
          have := List.eq_of_mem_replicate (hrepl ▸ hb2)
          exact this
        rw [hha, hhb]

/-- Witness for C5: in `Spider(1, 2, 2)` the entry at multi-index
`(1,1,1)` is 1 and the entry at `(0,1,0)` is 0. -/
theorem spider_array_diagonal_witness :
    (spiderArray 1 2 2).getD (flattenIdx (repDim 1 2 ++ repDim 2 2) [1, 1, 1]) 0 = 1 ∧
    (spiderArray 1 2 2).getD (flattenIdx (repDim 1 2 ++ repDim 2 2) [0, 1, 0]) 0 = 0 := by
  have h1 := (spider_array_diagonal 1 2 2 (by decide) [1, 1, 1] (by decide) (by decide)).2
  have h2 := (spider_array_diagonal 1 2 2 (by decide) [0, 1, 0] (by decide) (by decide)).2
  constructor
  · rw [h1, if_pos (by decide)]
  · rw [h2, if_neg (by decide)]

/-! The symmetric fragment (`symmetric.py`). Monoidal types are lists of
atom names; a diagram stores its `dom`, `cod` and the list of layers, a
layer being an offset together with the box placed there (as in
`monoidal.Diagram`, which stores `boxes` and `offsets`). The parts of
the data model living outside src/ (`monoidal.py`, `balanced.py`,
`hypergraph.py`) are modelled from the spec as indicated on each
definition. -/

/-- A symmetric monoidal type: the list of its atom names. -/
abbrev STy := List String

/-- A box of the symmetric fragment: either the `Swap` of two atomic
types (symmetric.py lines 218-237) or a generic named box. -/
inductive SBoxK where
  | swapBx (a b : String)
  | genBx (name : String) (bdom bcod : STy)
  deriving DecidableEq, Repr

/-- A symmetric diagram. Modelled from the spec: `monoidal.Diagram` (not
under src/) stores `dom`, `cod` and the layers, each layer recorded by
the offset of its box from the left edge. -/
structure SDiagram where
  dom : STy
  cod : STy
  layers : List (Nat × SBoxK)
  deriving DecidableEq, Repr

/-- `Diagram.id`: zero layers, `dom = cod`. -/
def idD (t : STy) : SDiagram := ⟨t, t, []⟩

/-- Modelled from the spec: `monoidal.Diagram.then` concatenates the two
layer lists at the shared boundary type (offsets are absolute, so `g`'s
layers are unchanged); this is the unchecked composition used inside
constructions that are well-typed by induction. -/
def thenD (f g : SDiagram) : SDiagram := ⟨f.dom, g.cod, f.layers ++ g.layers⟩

/-- `>>` with the composability check: composing `f` and `g` requires
`f.cod == g.dom`, else an `AxiomError` is raised. -/
def thenE (f g : SDiagram) : Except PyErr SDiagram :=
  if f.cod = g.dom then .ok (thenD f g) else .error .axErr

/-- Shift the offsets of a layer list by `k` (left whiskering by a type
of length `k`). -/
def shiftL (k : Nat) (ls : List (Nat × SBoxK)) : List (Nat × SBoxK) :=
  ls.map (fun p => (p.1 + k, p.2))

/-- Modelled from the spec: `monoidal.Diagram.tensor` with the
left-acts-first convention, `f @ g = (f @ id(g.dom)) then (id(f.cod) @
g)` — `f`'s layers keep their offsets, `g`'s layers are shifted by
`len(f.cod)`. -/
def tensorD (f g : SDiagram) : SDiagram :=
  ⟨f.dom ++ g.dom, f.cod ++ g.cod, f.layers ++ shiftL f.cod.length g.layers⟩

/-- The atomic `Swap(a, b)` box as a one-layer diagram. -/
def swapBox (a b : String) : SDiagram :=
  ⟨[a, b], [b, a], [(0, .swapBx a b)]⟩

/-- `Diagram.swap` (symmetric.py lines 125-138), which delegates to the
braid built by hexagon decomposition. Modelled from the spec for
`balanced.hexagon` (not under src/): swapping composite types reduces to
pairwise atomic swaps, one atom at a time, following the triangle and
hexagon equations stated in the module docstring of symmetric.py
(lines 27-34): `swap(x, y@z) = Swap(x,y) @ z >> y @ Swap(x,z)` and
`swap(x@y, z) = x @ swap(y,z) >> swap(x,z) @ y`. -/
def swapD : STy → STy → SDiagram
  | [], r => idD r
  | [a], [] => idD [a]
  | [a], [b] => swapBox a b
  | [a], b :: c :: rs =>
      thenD (tensorD (swapBox a b) (idD (c :: rs)))
            (tensorD (idD [b]) (swapD [a] (c :: rs)))
  | a :: b :: ls, r =>
      thenD (tensorD (idD [a]) (swapD (b :: ls) r))
            (tensorD (swapD [a] r) (idD (b :: ls)))
  termination_by l r => (l.length, r.length)

/-- A box node of the hypergraph: the box label together with the
half-edge identifiers wired to its input and output ports. -/
structure HNode where
  name : String
  bdom : STy
  bcod : STy
  ins : List Nat
  outs : List Nat
  deriving DecidableEq, Repr

/-- The traversal state of `to_hypergraph`: the next fresh half-edge
identifier, the currently open half-edge per wire position (`scan`), and
the box nodes created so far. -/
structure HState where
  next : Nat
  scan : List Nat
  nodes : List HNode
  deriving DecidableEq, Repr

/-- Modelled from the spec: one step of the `to_hypergraph` walk
(spec section on canonicalization; `hypergraph.py` is not under src/).
A pure `Swap` box relabels the two open half-edges at its offset; any
other box connects its input ports to the open half-edges at its offset,
creates fresh half-edges for its outputs and splices them in. -/
def hstep (st : HState) (l : Nat × SBoxK) : HState :=
  match l.2 with
  | .swapBx _ _ =>
      { st with scan :=
          st.scan.take l.1 ++ ((st.scan.drop l.1).take 2).reverse ++
            st.scan.drop (l.1 + 2) }
  | .genBx n bd bc =>
      { next := st.next + bc.length,
        scan := st.scan.take l.1 ++ (List.range bc.length).map (st.next + ·) ++
          st.scan.drop (l.1 + bd.length),
        nodes := st.nodes ++
          [⟨n, bd, bc, (st.scan.drop l.1).take bd.length,
            (List.range bc.length).map (st.next + ·)⟩] }

/-- The canonical hypergraph of a diagram: its boundary types, the box
nodes with their connectivity, and the boundary wiring (which open
half-edge each output port connects to). Half-edge identifiers are
assigned canonically by the traversal, so this is the canonical
serialization the spec prescribes for equality and hashing. -/
structure Hypergraph where
  dom : STy
  cod : STy
  nodes : List HNode
  boundary : List Nat
  deriving DecidableEq, Repr

/-- Modelled from the spec: `to_hypergraph` walks the layers left to
right, starting from the boundary input ports `0, ..., len(dom) - 1`. -/
def toHypergraph (d : SDiagram) : Hypergraph :=
  let st := d.layers.foldl hstep ⟨d.dom.length, List.range d.dom.length, []⟩
  ⟨d.dom, d.cod, st.nodes, st.scan⟩

/-- Modelled from the spec: `Diagram.__eq__` (symmetric.py lines 183-185)
compares the hypergraphs of the two diagrams; with canonical traversal
labels this is equality of the canonical serializations. -/
def deq (d1 d2 : SDiagram) : Prop := toHypergraph d1 = toHypergraph d2

/-- Python's `sorted` on a list of indices, modelled by insertion sort. -/
def pySorted (l : List Nat) : List Nat := l.insertionSort (· ≤ ·)

/-- `Diagram.permutation` (symmetric.py lines 140-158): raise
`ValueError` when `list(range(len(dom))) != sorted(xs)`, return the
identity on short domains, otherwise pick `i = xs[0]`, swap the block
`dom[:i]` past the atom `dom[i]`, and recurse on the shifted remainder
(the unreachable empty-`xs` branch is Python's `IndexError` on
`xs[0]`). -/
def permutationD : List Nat → STy → Except PyErr SDiagram
  | [], dom =>
      if List.range dom.length ≠ pySorted [] then .error .valueErr
      else if dom.length ≤ 1 then .ok (idD dom)
      else .error .indexErr
  | i :: rest, dom =>
      if List.range dom.length ≠ pySorted (i :: rest) then .error .valueErr
      else if dom.length ≤ 1 then .ok (idD dom)
      else do
        let tail ← permutationD (rest.map (fun x => if i < x then x - 1 else x))
          (dom.take i ++ dom.drop (i + 1))
        thenE (tensorD (swapD (dom.take i) ((dom.drop i).take 1))
                (idD (dom.drop (i + 1))))
              (tensorD (idD ((dom.drop i).take 1)) tail)
  termination_by xs _ => xs.length
  decreasing_by simp [List.length_map]

/-! The scan action of swap layers: each pure `Swap` box transposes two
adjacent entries of the open half-edge list. -/

/-- Transposition of the two entries at offset `o`. -/
def tpAt (s : List Nat) (o : Nat) : List Nat :=
  s.take o ++ ((s.drop o).take 2).reverse ++ s.drop (o + 2)

/-- The action of a swap-only layer list on the scan. -/
def hperm (ls : List (Nat × SBoxK)) (s : List Nat) : List Nat :=
  ls.foldl (fun acc p => tpAt acc p.1) s

/-- All layers are `Swap` boxes. -/
def swapOnly (ls : List (Nat × SBoxK)) : Prop :=
  ∀ p ∈ ls, ∃ a b, p.2 = SBoxK.swapBx a b

/-- All layers fit inside an ambient type of length `n`. -/
def layersBounded (n : Nat) (ls : List (Nat × SBoxK)) : Prop :=
  ∀ p ∈ ls, p.1 + 2 ≤ n

theorem hperm_cons (p : Nat × SBoxK) (t : List (Nat × SBoxK)) (s : List Nat) :
    hperm (p :: t) s = hperm t (tpAt s p.1) := rfl

theorem hperm_append (l1 l2 : List (Nat × SBoxK)) (s : List Nat) :
    hperm (l1 ++ l2) s = hperm l2 (hperm l1 s) := by
  simp [hperm, List.foldl_append]

theorem hfold_swapOnly (ls : List (Nat × SBoxK)) (h : swapOnly ls) :
    ∀ (nx : Nat) (s : List Nat) (nd : List HNode),
      ls.foldl hstep ⟨nx, s, nd⟩ = ⟨nx, hperm ls s, nd⟩ := by
  induction ls with
  | nil => intro nx s nd; rfl
  | cons p t ih =>
      intro nx s nd
      obtain ⟨a, b, hp⟩ := h p (List.mem_cons_self _ _)
      have hstep1 : hstep ⟨nx, s, nd⟩ p = ⟨nx, tpAt s p.1, nd⟩ := by
        simp [hstep, hp, tpAt]
      rw [List.foldl_cons, hstep1,
        ih (fun q hq => h q (List.mem_cons_of_mem _ hq)), hperm_cons]

theorem tpAt_length (s : List Nat) (o : Nat) (h : o + 2 ≤ s.length) :
    (tpAt s o).length = s.length := by
  simp [tpAt]
  omega

theorem tpAt_append_right (s w : List Nat) (o : Nat) (h : o + 2 ≤ s.length) :
    tpAt (s ++ w) o = tpAt s o ++ w := by
  unfold tpAt
  rw [List.take_append_of_le_length (by omega),
    List.drop_append_of_le_length (by omega),
    List.drop_append_of_le_length (by omega),
    List.take_append_of_le_length (by simp; omega)]
  simp [List.append_assoc]

theorem tpAt_shift (w s : List Nat) (o : Nat) :
    tpAt (w ++ s) (w.length + o) = w ++ tpAt s o := by
  unfold tpAt
  rw [List.take_append, List.drop_append,
    show w.length + o + 2 = w.length + (o + 2) by omega, List.drop_append]
  simp [List.append_assoc]

theorem hperm_length (ls : List (Nat × SBoxK)) :
    ∀ s : List Nat, layersBounded s.length ls → (hperm ls s).length = s.length := by
  induction ls with
  | nil => intro s _; rfl
  | cons p t ih =>
      intro s hb
      have h1 : p.1 + 2 ≤ s.length := hb p (List.mem_cons_self _ _)
      have h2 : (tpAt s p.1).length = s.length := tpAt_length s p.1 h1
      rw [hperm_cons, ih (tpAt s p.1) ?_, h2]
      rw [h2]
      exact fun q hq => hb q (List.mem_cons_of_mem _ hq)

theorem hperm_right_pad (ls : List (Nat × SBoxK)) :
    ∀ s w : List Nat, layersBounded s.length ls →
      hperm ls (s ++ w) = hperm ls s ++ w := by
  induction ls with
  | nil => intro s w _; rfl
  | cons p t ih =>
      intro s w hb
      have h1 : p.1 + 2 ≤ s.length := hb p (List.mem_cons_self _ _)
      rw [hperm_cons, hperm_cons, tpAt_append_right s w p.1 h1]
      refine ih (tpAt s p.1) w ?_
      rw [tpAt_length s p.1 h1]
      exact fun q hq => hb q (List.mem_cons_of_mem _ hq)

theorem hperm_shift (ls : List (Nat × SBoxK)) (k : Nat) :
    ∀ w s : List Nat, w.length = k →
      hperm (shiftL k ls) (w ++ s) = w ++ hperm ls s := by
  induction ls with
  | nil => intro w s _; rfl
  | cons p t ih =>
      intro w s hk
      have e1 : shiftL k (p :: t) = (p.1 + k, p.2) :: shiftL k t := rfl
      rw [e1, hperm_cons, hperm_cons,
        show p.1 + k = w.length + p.1 by omega, tpAt_shift]
      exact ih w (tpAt s p.1) hk

theorem swapOnly_append {l1 l2 : List (Nat × SBoxK)}
    (h1 : swapOnly l1) (h2 : swapOnly l2) : swapOnly (l1 ++ l2) :=
  fun p hp => (List.mem_append.mp hp).elim (h1 p) (h2 p)

theorem swapOnly_shift (k : Nat) {ls : List (Nat × SBoxK)}
    (h : swapOnly ls) : swapOnly (shiftL k ls) := by
  intro p hp
  obtain ⟨q, hq, rfl⟩ := List.mem_map.mp hp
  exact h q hq

theorem layersBounded_append {n : Nat} {l1 l2 : List (Nat × SBoxK)}
    (h1 : layersBounded n l1) (h2 : layersBounded n l2) :
    layersBounded n (l1 ++ l2) :=
  fun p hp => (List.mem_append.mp hp).elim (h1 p) (h2 p)

theorem layersBounded_shift {n : Nat} (k : Nat) {ls : List (Nat × SBoxK)}
    (h : layersBounded n ls) : layersBounded (n + k) (shiftL k ls) := by
  intro p hp
  obtain ⟨q, hq, rfl⟩ := List.mem_map.mp hp
  have := h q hq
  simp only []
  omega

theorem layersBounded_mono {n m : Nat} {ls : List (Nat × SBoxK)}
    (h : layersBounded n ls) (hnm : n ≤ m) : layersBounded m ls :=
  fun p hp => le_trans (h p hp) hnm

theorem swap_dom (l r : STy) : (swapD l r).dom = l ++ r := by
  induction l, r using swapD.induct with
  | case1 r => simp [swapD, idD]
  | case2 a => simp [swapD, idD]
  | case3 a b => simp [swapD, swapBox]
  | case4 a b c rs ih => simp [swapD, thenD, tensorD, idD, swapBox]
  | case5 a b ls r ih1 ih2 => simp [swapD, thenD, tensorD, idD, ih1]

theorem swap_cod (l r : STy) : (swapD l r).cod = r ++ l := by
  induction l, r using swapD.induct with
  | case1 r => simp [swapD, idD]
  | case2 a => simp [swapD, idD]
  | case3 a b => simp [swapD, swapBox]
  | case4 a b c rs ih => simp [swapD, thenD, tensorD, idD, swapBox, ih]
  | case5 a b ls r ih1 ih2 => simp [swapD, thenD, tensorD, idD, ih2]

theorem swap_layers_case4 (a b c : String) (rs : List String) :
    (swapD [a] (b :: c :: rs)).layers =
      (0, SBoxK.swapBx a b) :: shiftL 1 (swapD [a] (c :: rs)).layers := by
  simp [swapD, thenD, tensorD, idD, swapBox, shiftL]

theorem swap_layers_case5 (a b : String) (ls : List String) (r : STy) :
    (swapD (a :: b :: ls) r).layers =
      shiftL 1 (swapD (b :: ls) r).layers ++ (swapD [a] r).layers := by
  simp [swapD, thenD, tensorD, idD, shiftL]

theorem swap_layers_spec (l r : STy) :
    swapOnly (swapD l r).layers ∧
    layersBounded (l.length + r.length) (swapD l r).layers ∧
    ∀ s : List Nat, s.length = l.length + r.length →
      hperm (swapD l r).layers s = s.drop l.length ++ s.take l.length := by
  induction l, r using swapD.induct with
  | case1 r =>
      refine ⟨?_, ?_, ?_⟩
      · intro p hp; simp [swapD, idD] at hp
      · intro p hp; simp [swapD, idD] at hp
      · intro s hs; simp [swapD, idD, hperm]
  | case2 a =>
      refine ⟨?_, ?_, ?_⟩
      · intro p hp; simp [swapD, idD] at hp
      · intro p hp; simp [swapD, idD] at hp
      · intro s hs
        obtain ⟨x, rfl⟩ := List.length_eq_one.mp (by simpa using hs)
        simp [swapD, idD, hperm]
  | case3 a b =>
      refine ⟨?_, ?_, ?_⟩
      · intro p hp
        simp [swapD, swapBox] at hp
        exact ⟨a, b, by simp [hp]⟩
      · intro p hp
        simp [swapD, swapBox] at hp
        simp [hp]
      · intro s hs
        obtain ⟨x, y, rfl⟩ := List.length_eq_two.mp (by simpa using hs)
        simp [swapD, swapBox, hperm, tpAt]
  | case4 a b c rs ih =>
      obtain ⟨ihso, ihb, ihp⟩ := ih
      refine ⟨?_, ?_, ?_⟩
      · rw [swap_layers_case4]
        intro p hp
        rcases List.mem_cons.mp hp with rfl | hp'
        · exact ⟨a, b, rfl⟩
        · exact swapOnly_shift 1 ihso p hp'
      · rw [swap_layers_case4]
        intro p hp
        rcases List.mem_cons.mp hp with rfl | hp'
        · simp
          omega
        · obtain ⟨q, hq, rfl⟩ := List.mem_map.mp hp'
          have hq2 := ihb q hq
          simp at hq2 ⊢
          omega
      · intro s hs
        rcases s with _ | ⟨x, s'⟩
        · exfalso
          simp only [List.length_nil, List.length_cons, List.length_singleton] at hs
          omega
        rcases s' with _ | ⟨y, s2⟩
        · exfalso
          simp only [List.length_nil, List.length_cons, List.length_singleton] at hs
          omega
        rw [swap_layers_case4, hperm_cons]
        have e2 : tpAt (x :: y :: s2) 0 = y :: x :: s2 := by
          simp [tpAt]
        rw [e2, show (y :: x :: s2 : List Nat) = [y] ++ (x :: s2) from rfl,
          hperm_shift _ 1 [y] (x :: s2) rfl]
        rw [ihp (x :: s2)
          (by simp only [List.length_cons, List.length_singleton] at hs ⊢; omega)]
        simp
  | case5 a b ls r ih1 ih2 =>
      obtain ⟨ihso1, ihb1, ihp1⟩ := ih1
      obtain ⟨ihso2, ihb2, ihp2⟩ := ih2
      refine ⟨?_, ?_, ?_⟩
      · rw [swap_layers_case5]
        exact swapOnly_append (swapOnly_shift 1 ihso1) ihso2
      · rw [swap_layers_case5]
        refine layersBounded_append ?_ ?_
        · have hsh := layersBounded_shift 1 ihb1
          refine layersBounded_mono hsh ?_
          simp
          omega
        · refine layersBounded_mono ihb2 ?_
          simp
      · intro s hs
        rcases s with _ | ⟨x, s2⟩
        · exfalso
          simp only [List.length_nil, List.length_cons] at hs
          omega
        rw [swap_layers_case5, hperm_append,
          show (x :: s2 : List Nat) = [x] ++ s2 from rfl,
          hperm_shift _ 1 [x] s2 rfl]
        have hs2 : s2.length = (b :: ls).length + r.length := by
          simp at hs ⊢
          omega
        rw [ihp1 s2 hs2]
        have hA : (s2.drop (b :: ls).length).length = r.length := by
          rw [List.length_drop]
          simp only [List.length_cons] at hs2 ⊢
          omega
        have hregroup :
            [x] ++ (s2.drop (b :: ls).length ++ s2.take (b :: ls).length) =
              ([x] ++ s2.drop (b :: ls).length) ++ s2.take (b :: ls).length := by
          simp [List.append_assoc]
        rw [hregroup]
        have hlen1 : ([x] ++ s2.drop (b :: ls).length).length = [a].length + r.length := by
          simp only [List.length_append, List.length_singleton]
          omega
        rw [hperm_right_pad _ _ _ (by rw [hlen1]; exact ihb2)]
        rw [ihp2 _ hlen1]
        simp

theorem toHypergraph_mk (dm cd : STy) (ls : List (Nat × SBoxK)) :
    toHypergraph ⟨dm, cd, ls⟩ =
      ⟨dm, cd, (ls.foldl hstep ⟨dm.length, List.range dm.length, []⟩).nodes,
        (ls.foldl hstep ⟨dm.length, List.range dm.length, []⟩).scan⟩ := rfl

/-- C1: for all monoidal types `x` and `y`, the composition
`swap(x, y) >> swap(y, x)` succeeds and the composite is structurally
equal — hypergraph equality, the `==` of symmetric diagrams — to the
identity diagram on `x @ y`. -/
theorem swap_involution (x y : STy) :
    ∃ d, thenE (swapD x y) (swapD y x) = .ok d ∧ deq d (idD (x ++ y)) := by
  have hcomp : (swapD x y).cod = (swapD y x).dom := by rw [swap_cod, swap_dom]
  refine ⟨thenD (swapD x y) (swapD y x), by rw [thenE, if_pos hcomp], ?_⟩
  obtain ⟨hso1, hb1, hp1⟩ := swap_layers_spec x y
  obtain ⟨hso2, hb2, hp2⟩ := swap_layers_spec y x
  have hrangelen : (List.range (x ++ y).length).length = x.length + y.length := by
    simp
  have hlen2 : ((List.range (x ++ y).length).drop x.length ++
      (List.range (x ++ y).length).take x.length).length = y.length + x.length := by
    simp
  have hperm2 : hperm ((swapD x y).layers ++ (swapD y x).layers)
      (List.range (x ++ y).length) = List.range (x ++ y).length := by
    rw [hperm_append, hp1 _ hrangelen, hp2 _ hlen2]
    have hdl : ((List.range (x ++ y).length).drop x.length).length = y.length := by
      simp
    rw [← hdl, List.drop_left, List.take_left]
    exact List.take_append_drop _ _
  have hD : thenD (swapD x y) (swapD y x) =
      (⟨x ++ y, x ++ y, (swapD x y).layers ++ (swapD y x).layers⟩ : SDiagram) := by
    show (⟨(swapD x y).dom, (swapD y x).cod,
      (swapD x y).layers ++ (swapD y x).layers⟩ : SDiagram) = _
    rw [swap_dom, swap_cod]
  show toHypergraph (thenD (swapD x y) (swapD y x)) = toHypergraph (idD (x ++ y))
  rw [hD, toHypergraph_mk,
    hfold_swapOnly _ (swapOnly_append hso1 hso2) _ _ _, hperm2]
  rfl

/-! `Diagram.permutation` (C3). -/

theorem sorted_eq_range_iff (xs : List Nat) (n : Nat) :
    List.range n = pySorted xs ↔ xs.Perm (List.range n) := by
  constructor
  · intro h
    have hp : (pySorted xs).Perm xs := List.perm_insertionSort _ xs
    rw [← h] at hp
    exact hp.symm
  · intro h
    symm
    exact List.eq_of_perm_of_sorted ((List.perm_insertionSort _ xs).trans h)
      (List.sorted_insertionSort _ xs)
      (List.Pairwise.imp le_of_lt (List.pairwise_lt_range n))

theorem erase_range (n i : Nat) (hi : i < n) :
    (List.range n).erase i = List.range' 0 i ++ List.range' (i + 1) (n - i - 1) := by
  rw [List.range_eq_range']
  have h2 := List.range'_append 0 i (n - i) 1
  simp only [Nat.one_mul, Nat.zero_add] at h2
  rw [show n - i + i = n by omega] at h2
  rw [← h2]
  have hr : List.range' i (n - i) = i :: List.range' (i + 1) (n - i - 1) := by
    conv_lhs => rw [show n - i = (n - i - 1) + 1 by omega]
    rw [List.range'_succ]
  rw [hr]
  rw [List.erase_append_right _ (by
    intro hmem
    have := List.mem_range'_1.mp hmem
    omega)]
  rw [List.erase_cons_head]

theorem map_dec_erase_range (n i : Nat) (hi : i < n) :
    ((List.range n).erase i).map (fun x => if i < x then x - 1 else x) =
      List.range (n - 1) := by
  rw [erase_range n i hi, List.map_append]
  have h1 : (List.range' 0 i).map (fun x => if i < x then x - 1 else x) =
      List.range' 0 i := by
    have hpt : ∀ x ∈ List.range' 0 i, (if i < x then x - 1 else x) = x := by
      intro x hx
      have := List.mem_range'_1.mp hx
      rw [if_neg (by omega)]
    rw [List.map_congr_left hpt, List.map_id']
  have h2 : (List.range' (i + 1) (n - i - 1)).map (fun x => if i < x then x - 1 else x) =
      List.range' i (n - i - 1) := by
    have hm : List.range' (i + 1) (n - i - 1) =
        (List.range' i (n - i - 1)).map (fun x => 1 + x) := by
      rw [List.map_add_range', Nat.add_comm 1 i]
    rw [hm, List.map_map]
    have hpt : ∀ x ∈ List.range' i (n - i - 1),
        ((fun x => if i < x then x - 1 else x) ∘ (fun x => 1 + x)) x = x := by
      intro x hx
      have := List.mem_range'_1.mp hx
      simp only [Function.comp]
      rw [if_pos (by omega)]
      omega
    rw [List.map_congr_left hpt, List.map_id']
  rw [h1, h2]
  have h3 := List.range'_append 0 i (n - 1 - i) 1
  simp only [Nat.one_mul, Nat.zero_add] at h3
  rw [show n - i - 1 = n - 1 - i by omega, h3,
    show n - 1 - i + i = n - 1 by omega, ← List.range_eq_range']

theorem perm_step (i : Nat) (rest : List Nat) (n : Nat)
    (h : (i :: rest).Perm (List.range n)) :
    (rest.map (fun x => if i < x then x - 1 else x)).Perm (List.range (n - 1)) := by
  have hi : i < n := by
    have := h.subset (List.mem_cons_self _ _)
    simpa using this
  have hrest : rest.Perm ((List.range n).erase i) :=
    (List.cons_perm_iff_perm_erase.mp h).2
  have hmap := hrest.map (fun x => if i < x then x - 1 else x)
  rw [map_dec_erase_range n i hi] at hmap
  exact hmap

theorem permutationD_ok : ∀ (k : Nat) (xs : List Nat) (dom : STy), xs.length = k →
    xs.Perm (List.range dom.length) →
    ∃ d, permutationD xs dom = .ok d ∧ d.dom = dom := by
  intro k
  induction k with
  | zero =>
      intro xs dom hlen hp
      have hxs : xs = [] := List.length_eq_zero.mp hlen
      subst hxs
      have hn : dom.length = 0 := by
        have h0 : List.range dom.length = [] := List.perm_nil.mp hp.symm
        exact List.range_eq_nil.mp h0
      refine ⟨idD dom, ?_, rfl⟩
      simp only [permutationD]
      rw [if_neg (by rw [hn]; simp [pySorted]), if_pos (by omega)]
  | succ k ih =>
      intro xs dom hlen hp
      have hsort : List.range dom.length = pySorted xs :=
        (sorted_eq_range_iff xs _).mpr hp
      by_cases hdl : dom.length ≤ 1
      · refine ⟨idD dom, ?_, rfl⟩
        cases xs with
        | nil =>
            simp only [permutationD]
            rw [if_neg (by rw [hsort]; simp), if_pos hdl]
        | cons i rest =>
            simp only [permutationD]
            rw [if_neg (by rw [hsort]; simp), if_pos hdl]
      · obtain ⟨i, rest, rfl⟩ : ∃ i rest, xs = i :: rest := by
          cases xs with
          | nil => exact absurd hlen (by simp)
          | cons i rest => exact ⟨i, rest, rfl⟩
        have hi : i < dom.length := by
          have := hp.subset (List.mem_cons_self _ _)
          simpa using this
        have hdom' : (dom.take i ++ dom.drop (i + 1)).length = dom.length - 1 := by
          simp [List.length_take, List.length_drop]
          omega
        obtain ⟨tail, htail, htaildom⟩ := ih
          (rest.map (fun x => if i < x then x - 1 else x))
          (dom.take i ++ dom.drop (i + 1))
          (by
            simp only [List.length_map]
            simp only [List.length_cons] at hlen
            omega)
          (by rw [hdom']; exact perm_step i rest dom.length hp)
        have hcond : (tensorD (swapD (dom.take i) ((dom.drop i).take 1))
            (idD (dom.drop (i + 1)))).cod =
            (tensorD (idD ((dom.drop i).take 1)) tail).dom := by
          show (swapD (dom.take i) ((dom.drop i).take 1)).cod ++ dom.drop (i + 1) =
            (dom.drop i).take 1 ++ tail.dom
          rw [swap_cod, htaildom]
          simp [List.append_assoc]
        refine ⟨thenD (tensorD (swapD (dom.take i) ((dom.drop i).take 1))
            (idD (dom.drop (i + 1)))) (tensorD (idD ((dom.drop i).take 1)) tail),
          ?_, ?_⟩
        · simp only [permutationD]
          rw [if_neg (by rw [hsort]; simp), if_neg hdl]
          rw [htail, exceptBind_ok, thenE, if_pos hcond]
        · show (swapD (dom.take i) ((dom.drop i).take 1)).dom ++ dom.drop (i + 1) = dom
          rw [swap_dom, List.append_assoc]
          rw [List.take_one_drop_eq_of_lt_length hi]
          rw [show [dom.get ⟨i, hi⟩] ++ dom.drop (i + 1) = dom.drop i from ?_]
          · exact List.take_append_drop _ _
          · rw [List.singleton_append]
            exact (List.drop_eq_getElem_cons hi).symm

/-- C3: `Diagram.permutation(xs, dom)` raises a `ValueError`-kind error
exactly when `xs` is not a bijection on `range(len(dom))` — a
permutation of `0, ..., len(dom) - 1`, which also excludes wrong-length
index lists — and returns a diagram without error when it is such a
bijection. -/
theorem permutation_spec (xs : List Nat) (dom : STy) :
    (¬ xs.Perm (List.range dom.length) → permutationD xs dom = .error .valueErr) ∧
    (xs.Perm (List.range dom.length) → ∃ d, permutationD xs dom = .ok d) := by
  constructor
  · intro h
    have hne : List.range dom.length ≠ pySorted xs := fun heq =>
      h ((sorted_eq_range_iff xs _).mp heq)
    cases xs with
    | nil =>
        simp only [permutationD]
        rw [if_pos hne]
    | cons i rest =>
        simp only [permutationD]
        rw [if_pos hne]
  · intro h
    obtain ⟨d, hd, _⟩ := permutationD_ok xs.length xs dom rfl h
    exact ⟨d, hd⟩

/-- Witness for C3: the non-bijective list `[0, 0]` on a 2-atom domain
raises `ValueError`, the bijection `[1, 0]` yields a diagram. -/
theorem permutation_spec_witness :
    permutationD [0, 0] (["x", "y"]) = .error .valueErr ∧
    (∃ d, permutationD [1, 0] (["x", "y"]) = .ok d) :=
  ⟨(permutation_spec [0, 0] (["x", "y"])).1 (by decide),
   (permutation_spec [1, 0] (["x", "y"])).2 (by decide)⟩

end DiscopyModel
